import Mathlib

/-
Verification of the podman diagnostic-collection plugin
(src/sos/report/plugins/podman.py) against its specification.

The embedding models text as `List Char`.  Command outputs are split on
the newline character, which is the line separator produced by the
commands the plugin invokes.  Fallible parsing steps (Python list
comprehensions that can raise IndexError) are modelled with `Except`.
-/

namespace Podman

abbrev Str := List Char

deriving instance DecidableEq for Except

/-- Python whitespace characters recognised by str.split(), str.strip(). -/
def isSpace (c : Char) : Bool :=
  c = ' ' || c = '\t' || c = '\n' || c = '\r' || c = '\x0b' || c = '\x0c'

/-- Python s.split("\n"): split on every newline, keeping empty pieces. -/
def splitNl : Str → List Str
  | [] => [[]]
  | c :: cs =>
    if c = '\n' then [] :: splitNl cs
    else
      match splitNl cs with
      | [] => [[c]]
      | l :: ls => (c :: l) :: ls

/-- Drop one trailing empty piece, as str.splitlines does for a final newline. -/
def dropLastEmpty : List Str → List Str
  | [] => []
  | [x] => if x = [] then [] else [x]
  | x :: xs => x :: dropLastEmpty xs

/-- Python s.splitlines() for newline-separated text. -/
def splitlines (s : Str) : List Str := dropLastEmpty (splitNl s)

/-- Helper for pySplit: accumulates the current word (reversed). -/
def pySplitAux : Str → Str → List Str
  | [], w => if w = [] then [] else [w.reverse]
  | c :: cs, w =>
    if isSpace c then
      if w = [] then pySplitAux cs [] else w.reverse :: pySplitAux cs []
    else pySplitAux cs (c :: w)

/-- Python s.split(): split on runs of whitespace, dropping empty fields. -/
def pySplit (s : Str) : List Str := pySplitAux s []

/-- Python s.strip(): remove leading and trailing whitespace. -/
def pyStrip (s : Str) : Str :=
  ((s.dropWhile isSpace).reverse.dropWhile isSpace).reverse

/-- Boolean prefix test, recursing on the pattern first. -/
def pfxB : Str → Str → Bool
  | [], _ => true
  | a :: as, bs =>
    match bs with
    | [] => false
    | b :: bs2 => (a == b) && pfxB as bs2

/-- Substring test: p occurs contiguously inside s. -/
def hasSubstr (s p : Str) : Bool :=
  s.tails.any (fun t => pfxB p t)

/-- ASCII lower-casing, used only to state case-insensitivity claims. -/
def lowerC (c : Char) : Char :=
  if 'A' ≤ c ∧ c ≤ 'Z' then Char.ofNat (c.toNat + 32) else c

/-! ## The redaction pass (Podman.postproc)

The source applies the regular expression
`(?P<var>(pass|key|secret|PASS|KEY|SECRET).*?)=(?P<value>.*?)"`
with replacement `\g<var>=********"` to every archived blob whose name
matches the glob `*inspect*`.  A match anchored at a position requires
one of the six literal alternatives there, then a lazy run of
non-newline characters up to the first `=`, then a lazy run of
non-newline characters up to the first `"`.  Backtracking to a later
`=` can never succeed when the first one fails, because failure means
no `"` occurs later in the line. -/

/-- The six literal alternatives of the sensitive-key group. -/
def triggers : List Str :=
  ["pass".toList, "key".toList, "secret".toList,
   "PASS".toList, "KEY".toList, "SECRET".toList]

/-- The replacement mask: eight asterisks. -/
def stars : Str := "********".toList

/-- Scan for ch, returning the consumed part and the remainder after ch;
fails at end of input or at a newline (the regex dot excludes newlines). -/
def takeToChar (ch : Char) : Str → Option (Str × Str)
  | [] => none
  | c :: cs =>
    if c = ch then some ([], cs)
    else if c = '\n' then none
    else
      match takeToChar ch cs with
      | none => none
      | some p => some (c :: p.1, p.2)

/-- Which trigger (if any) is a literal prefix of s.  The six alternatives
start with pairwise distinct characters, so at most one can apply. -/
def matchTrigger (s : Str) : Option Str :=
  if pfxB ("pass".toList) s then some ("pass".toList)
  else if pfxB ("key".toList) s then some ("key".toList)
  else if pfxB ("secret".toList) s then some ("secret".toList)
  else if pfxB ("PASS".toList) s then some ("PASS".toList)
  else if pfxB ("KEY".toList) s then some ("KEY".toList)
  else if pfxB ("SECRET".toList) s then some ("SECRET".toList)
  else none

/-- The part of the anchored match after a trigger t: a lazy run to the
first '=', then a lazy run to the first '"'. -/
def chainEnv (t u : Str) : Option (Str × Str × Str) :=
  match takeToChar '=' u with
  | none => none
  | some (mid, s2) =>
    match takeToChar '"' s2 with
    | none => none
    | some (v, rest) => some (t ++ mid, v, rest)

/-- Try to match the sensitive-key pattern anchored at the head of s.
Returns (var, value, rest-after-closing-quote) on success. -/
def matchEnvAt (s : Str) : Option (Str × Str × Str) :=
  match matchTrigger s with
  | none => none
  | some t => chainEnv t (s.drop t.length)

/-- Fuel-indexed scanner implementing re.sub: at each position try the
anchored match; on success emit `var=********"` and continue after the
match, otherwise copy one character. -/
def envSubGo : Nat → Str → Str
  | _, [] => []
  | 0, s => s
  | fuel + 1, c :: cs =>
    match matchEnvAt (c :: cs) with
    | some (var, _, rest) => var ++ '=' :: (stars ++ '"' :: envSubGo fuel rest)
    | none => c :: envSubGo fuel cs

/-- The substitution pass of Podman.postproc over one text blob. -/
def envSub (s : Str) : Str := envSubGo s.length s

/-- The glob `*inspect*` used by do_cmd_output_sub. -/
def matchesInspectGlob (name : Str) : Bool := hasSubstr name ("inspect".toList)

/-- Podman.postproc over an archive of named blobs: blobs whose name
matches `*inspect*` get the substitution pass, others are untouched. -/
def redactArchive (blobs : List (Str × Str)) : List (Str × Str) :=
  blobs.map (fun b => if matchesInspectGlob b.1 then (b.1, envSub b.2) else b)

/-! ## The collection pipeline (Podman.setup)

External collaborators are oracles: `run` models exec_cmd and
collect_cmd_output (keyed by the full command text), `lslogins` the
login-enumeration command, and the three root* fields the framework
inventory used for the root identity (get_containers already projected
to the container ids, as the source does with `c[0]`).

Spec emission via add_cmd_output / collect_cmd_output is modelled as a
list of CommandSpec built in source order.  An uncaught IndexError in
one of the parsing comprehensions aborts setup; specs emitted before
the exception are kept, matching the side-effecting source.
add_cmd_tags and add_dir_listing register no command specs and are not
modelled. -/

/-- Result of the external CommandExecutor, as the source reads it. -/
structure CmdResult where
  status : Int
  output : Str

/-- The four recognised plugin options. -/
structure PodmanOpts where
  all : Bool
  logs : Bool
  size : Bool
  allusers : Bool

/-- One unit of planned collection: command text, output subpath, tags,
optional deferred-scheduling priority. -/
structure CommandSpec where
  cmd : Str
  subdir : Str
  tags : List Str
  priority : Option Nat
deriving DecidableEq

/-- The external environment consumed by setup. -/
structure Env where
  lslogins : CmdResult
  run : Str → CmdResult
  rootContainers : Bool → List Str
  rootImages : List (Str × Str)
  rootVolumes : List Str

/-- Result of a setup run: the specs emitted so far, and whether an
uncaught exception (IndexError in a comprehension) aborted the run. -/
structure BuildOut where
  specs : List CommandSpec
  err : Bool
deriving DecidableEq

/-- lslogins parsing (podman.py lines 58-64): for each output line take
the second whitespace field; a line with fewer than two fields raises
IndexError (the guard itself indexes the missing field). -/
def parseUsersGo : List Str → Except Unit (List Str)
  | [] => Except.ok []
  | line :: rest =>
    match (pySplit line).get? 1 with
    | none => Except.error ()
    | some f =>
      match parseUsersGo rest with
      | Except.error e => Except.error e
      | Except.ok us =>
        Except.ok (if pyStrip f = [] then us else pyStrip f :: us)

/-- lslogins output parsing (podman.py lines 56-64). -/
def parseUsers (out : Str) : Except Unit (List Str) :=
  parseUsersGo (splitlines out)

/-- Non-root `podman ps` parsing (podman.py lines 152-161): skip the
header line, skip blank lines, take the first whitespace field. -/
def parseContainers (out : Str) : List Str :=
  ((splitlines out).drop 1).filterMap
    (fun line => if pyStrip line = [] then none else (pySplit line).head?)

/-- Non-root `podman images --no-trunc` parsing (podman.py lines
168-180): strip, split on newlines, skip the header line, and for each
remaining line build ("repo:tag", id) from fields 0, 1, 2.  A line with
fewer than three fields raises IndexError — there is no guard. -/
def parseImagesGo : List Str → Except Unit (List (Str × Str))
  | [] => Except.ok []
  | line :: rest =>
    match (pySplit line).get? 0, (pySplit line).get? 1, (pySplit line).get? 2 with
    | some a, some b, some c =>
      match parseImagesGo rest with
      | Except.error e => Except.error e
      | Except.ok l => Except.ok ((a ++ ':' :: b, c) :: l)
    | _, _, _ => Except.error ()

/-- `podman images --no-trunc` output parsing (podman.py lines 168-180). -/
def parseImages (out : Str) : Except Unit (List (Str × Str)) :=
  parseImagesGo ((splitNl (pyStrip out)).drop 1)

/-- Non-root volume listing parsing (podman.py lines 184-188): every
non-blank output line is one volume name (kept verbatim). -/
def parseVolumes (out : Str) : List Str :=
  (splitlines out).filter (fun v => !(pyStrip v).isEmpty)

/-- Network listing parsing (podman.py lines 124-127): skip the header
line, take the first whitespace field; a blank line raises IndexError. -/
def parseNetsGo : List Str → Except Unit (List Str)
  | [] => Except.ok []
  | line :: rest =>
    match (pySplit line).head? with
    | none => Except.error ()
    | some f =>
      match parseNetsGo rest with
      | Except.error e => Except.error e
      | Except.ok l => Except.ok (f :: l)

/-- `podman network ls` output parsing (podman.py lines 123-127). -/
def parseNets (out : Str) : Except Unit (List Str) :=
  parseNetsGo ((splitlines out).drop 1)

/-- User resolution (podman.py lines 53-64): start from ['root']; with
allusers enabled and lslogins succeeding, the list is replaced by the
parsed user names. -/
def resolveUsers (opts : PodmanOpts) (env : Env) : Except Unit (List Str) :=
  if opts.allusers then
    if env.lslogins.status = 0 then parseUsers env.lslogins.output
    else Except.ok ("root".toList :: [])
  else Except.ok ("root".toList :: [])

/-- The invocation prefix (podman.py lines 89-91): empty for root,
"sudo -u USER" otherwise. -/
def userCmdPrefix (user : Str) : Str :=
  if user = "root".toList then [] else "sudo -u ".toList ++ user

/-- The liveness filter (podman.py lines 87-98): root is kept without
any probe; a non-root user is kept iff `... podman ps -aq` returns
status 0 with non-blank output.  (Empty user names are skipped by the
`if not user: continue` guard, handled in keptUsers.) -/
def keepUser (env : Env) (user : Str) : Bool :=
  if user = "root".toList then true
  else
    let r := env.run (userCmdPrefix user ++ (" podman ps -aq".toList))
    decide (r.status = 0) && !(pyStrip r.output).isEmpty

/-- The users that actually get processed by the setup loop. -/
def keptUsers (env : Env) (users : List Str) : List Str :=
  users.filter (fun u => !u.isEmpty && keepUser env u)

/-- The identity sequence produced by a setup run: resolution then the
per-user liveness filter. -/
def identitySeq (opts : PodmanOpts) (env : Env) : Except Unit (List Str) :=
  (resolveUsers opts env).map (keptUsers env)

/-- The fixed diagnostic sub-command catalog (podman.py lines 71-84). -/
def subcmds : List Str :=
  ["info", "image trust show", "images", "images --digests", "pod ps",
   "port --all", "ps", "ps -a", "stats --no-stream --all", "version",
   "volume ls", "system df -v"].map String.toList

/-- The twelve catalog specs (podman.py lines 105-108). -/
def baseSpecs (command user : Str) : List CommandSpec :=
  subcmds.map (fun s =>
    ⟨command ++ (" podman ".toList) ++ s, user ++ ('/' :: []), [], none⟩)

/-- The size-option spec with deferred priority 100 (podman.py 111-116). -/
def sizeSpecs (opts : PodmanOpts) (command user : Str) : List CommandSpec :=
  if opts.size then
    [⟨command ++ (" podman ps -as".toList), user ++ ('/' :: []), [], some 100⟩]
  else []

/-- The network listing spec (podman.py lines 118-122). -/
def netListSpec (command user : Str) : CommandSpec :=
  ⟨command ++ (" podman network ls".toList), user ++ ("/networks".toList),
   ["podman_list_networks".toList], none⟩

/-- Per-network inspect specs (podman.py lines 128-135). -/
def netInspectSpecs (command user : Str) (nets : List Str) : List CommandSpec :=
  nets.map (fun n =>
    ⟨command ++ (" podman network inspect ".toList) ++ n,
     user ++ ("/networks".toList), ["podman_network_inspect".toList], none⟩)

/-- Network discovery for one user (podman.py lines 118-127): a failed
listing yields no networks. -/
def discoveredNets (env : Env) (command : Str) : Except Unit (List Str) :=
  let p := env.run (command ++ (" podman network ls".toList))
  if p.status = 0 then parseNets p.output else Except.ok []

/-- Container discovery (podman.py lines 137-161): the framework
inventory for root, an own `podman ps` (or `ps -a`) parse otherwise. -/
def discoveredContainers (opts : PodmanOpts) (env : Env) (user command : Str) :
    List Str :=
  if user = "root".toList then env.rootContainers opts.all
  else
    let cmd := command ++
      (if opts.all then " podman ps -a".toList else " podman ps".toList)
    let cd := env.run cmd
    if cd.status = 0 then parseContainers cd.output else []

/-- The non-root image listing command (podman.py line 164). -/
def imagesCmd (command : Str) : Str :=
  command ++ (" podman images --no-trunc".toList)

/-- Image discovery (podman.py lines 142, 163-180): framework inventory
for root; otherwise parse of the no-truncation listing, which can raise. -/
def discoveredImages (env : Env) (user command : Str) :
    Except Unit (List (Str × Str)) :=
  if user = "root".toList then Except.ok env.rootImages
  else
    let d := env.run (imagesCmd command)
    if d.status = 0 then parseImages d.output else Except.ok []

/-- Volume discovery (podman.py lines 143, 181-188). -/
def discoveredVolumes (env : Env) (user command : Str) : List Str :=
  if user = "root".toList then env.rootVolumes
  else
    let v := env.run (command ++
      (" podman volume ls --format \"\x7b\x7b.Name\x7d\x7d\"".toList))
    if v.status = 0 then parseVolumes v.output else []

/-- The spec filed by collect_cmd_output for the non-root image listing
(podman.py lines 163-165); root uses the framework inventory instead. -/
def imageCollectSpecs (user command : Str) : List CommandSpec :=
  if user = "root".toList then []
  else [⟨imagesCmd command, user ++ ('/' :: []), [], none⟩]

/-- Per-container inspect specs (podman.py lines 190-193). -/
def containerSpecs (command user : Str) (cons : List Str) : List CommandSpec :=
  cons.map (fun c =>
    ⟨command ++ (" podman inspect ".toList) ++ c,
     user ++ ("/containers".toList), ["podman_container_inspect".toList], none⟩)

/-- The inspection target of an image (podman.py line 197): the id when
the literal substring "none" occurs anywhere in "repo:tag", the
repo:tag name otherwise. -/
def imageTarget (name iid : Str) : Str :=
  if hasSubstr name ("none".toList) then iid else name

/-- Per-image inspect and dependency-tree specs (podman.py 195-207). -/
def imageSpecs (command user : Str) (images : List (Str × Str)) :
    List CommandSpec :=
  images.flatMap (fun p =>
    [⟨command ++ (" podman inspect ".toList) ++ imageTarget p.1 p.2,
      user ++ ("/images".toList), ["podman_image_inspect".toList], none⟩,
     ⟨command ++ (" podman image tree ".toList) ++ imageTarget p.1 p.2,
      user ++ ("/images/tree".toList), ["podman_image_tree".toList], none⟩])

/-- Per-volume inspect specs (podman.py lines 209-212). -/
def volumeSpecs (command user : Str) (vols : List Str) : List CommandSpec :=
  vols.map (fun v =>
    ⟨command ++ (" podman volume inspect ".toList) ++ v,
     user ++ ("/volumes".toList), ["podman_volume_inspect".toList], none⟩)

/-- Per-container log specs with deferred priority 50 (podman.py 214-217). -/
def logSpecs (opts : PodmanOpts) (command user : Str) (cons : List Str) :
    List CommandSpec :=
  if opts.logs then
    cons.map (fun c =>
      ⟨command ++ (" podman logs -t ".toList) ++ c,
       user ++ ("/containers".toList), [], some 50⟩)
  else []

/-- The full per-user emission sequence of the setup loop body
(podman.py lines 100-217), in source order.  The network parse and the
image parse can raise IndexError; specs emitted before the exception
are kept and the error flag is set. -/
def buildUser (opts : PodmanOpts) (env : Env) (user : Str) : BuildOut :=
  let command := userCmdPrefix user
  let pre := baseSpecs command user ++ sizeSpecs opts command user ++
    [netListSpec command user]
  match discoveredNets env command with
  | Except.error _ => ⟨pre, true⟩
  | Except.ok nets =>
    let pre2 := pre ++ netInspectSpecs command user nets
    match discoveredImages env user command with
    | Except.error _ => ⟨pre2 ++ imageCollectSpecs user command, true⟩
    | Except.ok images =>
      let cons := discoveredContainers opts env user command
      let vols := discoveredVolumes env user command
      ⟨pre2 ++ imageCollectSpecs user command ++
        containerSpecs command user cons ++
        imageSpecs command user images ++
        volumeSpecs command user vols ++
        logSpecs opts command user cons, false⟩

/-- Process the filtered user list in order; an exception aborts the
remaining users but keeps what was already emitted. -/
def buildUsers (opts : PodmanOpts) (env : Env) : List Str → BuildOut
  | [] => ⟨[], false⟩
  | u :: rest =>
    let b := buildUser opts env u
    if b.err then b
    else
      let r := buildUsers opts env rest
      ⟨b.specs ++ r.specs, r.err⟩

/-- Podman.setup as a whole: resolve users, filter them, emit specs. -/
def setupOut (opts : PodmanOpts) (env : Env) : BuildOut :=
  match resolveUsers opts env with
  | Except.error _ => ⟨[], true⟩
  | Except.ok users => buildUsers opts env (keptUsers env users)

/-! ## Auxiliary predicates for the redaction proofs -/

/-- w is a contiguous prefix of s. -/
def Pfx (w s : Str) : Prop := ∃ u, s = w ++ u

/-- w is a contiguous suffix of s. -/
def Sfx (w s : Str) : Prop := ∃ u, s = u ++ w

/-- r is empty or starts a new line. -/
def LineSep (r : Str) : Prop := r = [] ∨ ∃ r₂, r = '\n' :: r₂

/-- No '=' in the list is followed (anywhere later) by a '"'. Inside one
line this means the anchored pattern cannot complete from any offset. -/
def eqThenQuoteFree : Str → Bool
  | [] => true
  | c :: cs =>
    (if c = '=' then !(decide ('"' ∈ cs)) else true) && eqThenQuoteFree cs

/-! ## Concrete scenario data used by the claim theorems -/

/-- C1 scenario: one non-root image whose repository is "nonexistent"
(not the placeholder "none") but which contains "none" as a substring. -/
def envC1 : Env :=
  { lslogins := ⟨1, []⟩
    run := fun c =>
      if c = imagesCmd (userCmdPrefix ("alice".toList)) then
        ⟨0, ("REPOSITORY TAG IMAGE_ID\nnonexistent latest abc".toList)⟩
      else ⟨1, []⟩
    rootContainers := fun _ => []
    rootImages := []
    rootVolumes := [] }

/-- C1 witness scenario: one non-root image r:t without the substring
"none" anywhere in its repo:tag name. -/
def envC1b : Env :=
  { lslogins := ⟨1, []⟩
    run := fun c =>
      if c = imagesCmd (userCmdPrefix ("alice".toList)) then
        ⟨0, ("REPOSITORY TAG IMAGE_ID\nr t i".toList)⟩
      else ⟨1, []⟩
    rootContainers := fun _ => []
    rootImages := []
    rootVolumes := [] }

/-- C2 scenario: login enumeration succeeds and lists only alice, whose
liveness probe succeeds with non-blank output. -/
def envC2 : Env :=
  { lslogins := ⟨0, ("1000 alice".toList)⟩
    run := fun c =>
      if c = ("sudo -u alice podman ps -aq".toList) then ⟨0, ("abc".toList)⟩
      else ⟨1, []⟩
    rootContainers := fun _ => []
    rootImages := []
    rootVolumes := [] }

/-- C3 witness scenario: carol is enumerated and her probe succeeds. -/
def envC3 : Env :=
  { lslogins := ⟨0, ("1000 carol".toList)⟩
    run := fun c =>
      if c = ("sudo -u carol podman ps -aq".toList) then ⟨0, ("zz".toList)⟩
      else ⟨1, []⟩
    rootContainers := fun _ => []
    rootImages := []
    rootVolumes := [] }

/-- C5 scenario: the image listing succeeds but its second line has only
two whitespace-separated fields. -/
def envC5 : Env :=
  { lslogins := ⟨1, []⟩
    run := fun c =>
      if c = imagesCmd (userCmdPrefix ("alice".toList)) then
        ⟨0, ("REPOSITORY TAG IMAGE_ID\nfoo bar\nr t i".toList)⟩
      else ⟨1, []⟩
    rootContainers := fun _ => []
    rootImages := []
    rootVolumes := [] }

/-- C6 scenario: login enumeration output with a one-field line between
two well-formed lines. -/
def envC6 : Env :=
  { lslogins := ⟨0, ("1000 alice\nstray\n1001 bob".toList)⟩
    run := fun _ => ⟨1, []⟩
    rootContainers := fun _ => []
    rootImages := []
    rootVolumes := [] }

/-- C9 witness scenario: every external command fails. -/
def envC9 : Env :=
  { lslogins := ⟨1, []⟩
    run := fun _ => ⟨1, []⟩
    rootContainers := fun _ => []
    rootImages := []
    rootVolumes := [] }

/-- C10 witness scenario: dave has one container c1. -/
def envC10 : Env :=
  { lslogins := ⟨1, []⟩
    run := fun c =>
      if c = ("sudo -u dave podman ps".toList) then
        ⟨0, ("CONTAINER ID\nc1 r".toList)⟩
      else ⟨1, []⟩
    rootContainers := fun _ => []
    rootImages := []
    rootVolumes := [] }

/-- C4 counterexample blob: the key contains "pass" case-insensitively
but in mixed case. -/
def c4Blob : Str := "\"myPass=hidden\"".toList

/-- What the claim, read case-insensitively, would require for c4Blob. -/
def c4Masked : Str := "\"myPass=********\"".toList

/-- An archived blob name matching the glob distributed by postproc. -/
def c4Name : Str := "podman_inspect_container_x".toList

/-- C7 witness listing: a header line and two container rows. -/
def c7Out : Str := "CONTAINER ID\nabc x\ndef y".toList

/-- C7 witness image listing: a header line and two well-formed rows. -/
def c7ImgOut : Str := "REPOSITORY TAG IMAGE_ID\nr t i\nx y z".toList

/-! ## Parsing lemmas -/

theorem pySplitAux_ne_nil : ∀ (l w : Str), w ≠ [] → pySplitAux l w ≠ [] := by
  intro l
  induction l with
  | nil => intro w hw; simp [pySplitAux, hw]
  | cons c cs ih =>
    intro w hw
    simp only [pySplitAux]
    by_cases hsp : isSpace c
    · simp only [hsp, if_true, hw, if_neg]
      exact List.cons_ne_nil _ _
    · simp only [hsp, if_false]
      exact ih (c :: w) (List.cons_ne_nil _ _)

theorem pySplit_eq_nil_allspace :
    ∀ l : Str, pySplit l = [] → ∀ c ∈ l, isSpace c = true := by
  intro l
  induction l with
  | nil => intro _ c hc; cases hc
  | cons c cs ih =>
    intro h x hx
    simp only [pySplit, pySplitAux] at h
    by_cases hsp : isSpace c
    · simp only [hsp, if_true] at h
      rcases List.mem_cons.1 hx with rfl | hx
      · exact hsp
      · exact ih h x hx
    · simp only [hsp, if_false] at h
      exact absurd h (pySplitAux_ne_nil cs [c] (List.cons_ne_nil _ _))

theorem pyStrip_nil_of_allspace {l : Str}
    (h : ∀ c ∈ l, isSpace c = true) : pyStrip l = [] := by
  unfold pyStrip
  rw [List.dropWhile_eq_nil_iff.2 h]
  rfl

theorem pySplit_ne_nil {l : Str} (h : pyStrip l ≠ []) : pySplit l ≠ [] := by
  intro hs
  exact h (pyStrip_nil_of_allspace (pySplit_eq_nil_allspace l hs))

theorem parseUsersGo_no_nil :
    ∀ (ls : List Str) (us : List Str), parseUsersGo ls = Except.ok us →
      [] ∉ us := by
  intro ls
  induction ls with
  | nil =>
    intro us h
    simp only [parseUsersGo, Except.ok.injEq] at h
    subst h; simp
  | cons line rest ih =>
    intro us h
    simp only [parseUsersGo] at h
    cases hf : (pySplit line).get? 1 with
    | none => rw [hf] at h; cases h
    | some f =>
      rw [hf] at h
      cases hr : parseUsersGo rest with
      | error e => rw [hr] at h; cases h
      | ok us2 =>
        rw [hr] at h
        simp only [Except.ok.injEq] at h
        subst h
        by_cases hstrip : pyStrip f = []
        · simpa [hstrip] using ih us2 hr
        · simp only [hstrip, if_false, List.mem_cons]
          rintro (h1 | h2)
          · exact hstrip h1.symm
          · exact ih us2 hr h2

theorem resolveUsers_no_nil {opts : PodmanOpts} {env : Env} {us : List Str}
    (h : resolveUsers opts env = Except.ok us) : [] ∉ us := by
  unfold resolveUsers at h
  split at h
  · split at h
    · exact parseUsersGo_no_nil _ us h
    · simp only [Except.ok.injEq] at h; subst h; simp
  · simp only [Except.ok.injEq] at h; subst h; simp

theorem keepUser_root (env : Env) : keepUser env ("root".toList) = true := by
  simp [keepUser]

/-- C3 (confirmed): a non-privileged candidate is in the processed
identity sequence iff its liveness probe (list all containers under it)
returns status 0 with non-blank output; otherwise it is dropped with no
error and the rest of the sequence is unaffected. -/
theorem c3_liveness_filter :
    ∀ (opts : PodmanOpts) (env : Env) (us : List Str) (u : Str),
      resolveUsers opts env = Except.ok us → u ∈ us → u ≠ "root".toList →
      (u ∈ keptUsers env us ↔
        ((env.run (userCmdPrefix u ++ (" podman ps -aq".toList))).status = 0 ∧
         pyStrip (env.run (userCmdPrefix u ++ (" podman ps -aq".toList))).output
           ≠ [])) := by
  intro opts env us u hres hmem hne
  have hnn : u ≠ [] := by
    intro he; exact resolveUsers_no_nil hres (he ▸ hmem)
  unfold keptUsers keepUser
  rw [List.mem_filter]
  simp only [hmem, true_and, if_neg hne, Bool.and_eq_true, decide_eq_true_eq,
    Bool.not_eq_true', List.isEmpty_eq_false]
  constructor
  · rintro ⟨_, h1, h2⟩; exact ⟨h1, h2⟩
  · rintro ⟨h1, h2⟩; exact ⟨hnn, h1, h2⟩

/-- C3 witness: carol is enumerated; her probe returns status 0 with
output "zz", and she is indeed in the processed sequence. -/
theorem c3_witness :
    ("carol".toList ∈ keptUsers envC3 [("carol".toList)]) ↔
      ((envC3.run (userCmdPrefix ("carol".toList) ++
          (" podman ps -aq".toList))).status = 0 ∧
       pyStrip (envC3.run (userCmdPrefix ("carol".toList) ++
          (" podman ps -aq".toList))).output ≠ []) :=
  c3_liveness_filter ⟨false, false, false, true⟩ envC3 [("carol".toList)]
    ("carol".toList) (by decide) (by decide) (by decide)

/-- C2 counterexample: with allusers enabled, a successful login
enumeration listing only alice, and a passing probe for alice, the
resulting identity sequence is exactly [alice] — the privileged root
identity is absent, contradicting "present exactly once and first". -/
theorem c2_counterexample :
    identitySeq ⟨false, false, false, true⟩ envC2 =
      Except.ok [("alice".toList)] ∧
    ("root".toList) ∉ [("alice".toList)] := by
  constructor
  · decide
  · decide

/-- C2 (corrected): when the enumeration path is not taken (allusers
off, or the enumeration fails) the identity sequence is exactly [root];
when enumeration succeeds the sequence is the surviving parsed users in
encountered order, root survives unconditionally wherever the
enumeration lists it, and if the enumeration lists root first the
sequence starts with root — but root is not otherwise guaranteed
present or first. -/
theorem c2_amended :
    ∀ (opts : PodmanOpts) (env : Env),
      (opts.allusers = false →
        identitySeq opts env = Except.ok [("root".toList)])
      ∧ (opts.allusers = true → env.lslogins.status ≠ 0 →
        identitySeq opts env = Except.ok [("root".toList)])
      ∧ (∀ us, opts.allusers = true → env.lslogins.status = 0 →
          parseUsers env.lslogins.output = Except.ok us →
          identitySeq opts env = Except.ok (keptUsers env us))
      ∧ (∀ us, ("root".toList) ∈ us →
          ("root".toList) ∈ keptUsers env us)
      ∧ (∀ rest, keptUsers env (("root".toList) :: rest) =
          ("root".toList) :: keptUsers env rest) := by
  intro opts env
  refine ⟨?_, ?_, ?_, ?_, ?_⟩
  · intro h
    simp only [identitySeq, resolveUsers, h, Bool.false_eq_true, if_false]
    simp [Except.map, keptUsers, keepUser]
  · intro h hs
    simp only [identitySeq, resolveUsers, h, if_true, if_neg hs]
    simp [Except.map, keptUsers, keepUser]
  · intro us h hs hp
    simp only [identitySeq, resolveUsers, h, if_true, if_pos hs, parseUsers]
    rw [show parseUsersGo (splitlines env.lslogins.output) = Except.ok us
      from hp]
    rfl
  · intro us hmem
    exact List.mem_filter.2 ⟨hmem, by simp [keepUser]⟩
  · intro rest
    unfold keptUsers
    rw [List.filter_cons_of_pos (by simp [keepUser])]

/-- C2 witness: with allusers disabled the sequence is exactly [root]. -/
theorem c2_witness :
    identitySeq ⟨false, false, false, false⟩ envC2 =
      Except.ok [("root".toList)] :=
  (c2_amended ⟨false, false, false, false⟩ envC2).1 rfl

/-- C5 (code_bug): the image-listing parser does not skip a line with
fewer than three fields — it raises IndexError, aborting the image
parse instead of processing the remaining well-formed lines.  A listing
without malformed lines parses as the claim describes. -/
theorem c5_images_malformed_line :
    parseImages ("REPOSITORY TAG IMAGE_ID\nfoo bar\nr t i".toList) =
      Except.error ()
    ∧ discoveredImages envC5 ("alice".toList)
        (userCmdPrefix ("alice".toList)) = Except.error ()
    ∧ parseImages ("REPOSITORY TAG IMAGE_ID\nr t i".toList) =
      Except.ok [(("r:t".toList), ("i".toList))] := by
  refine ⟨by decide, by decide, by decide⟩

/-- C6 (code_bug): the login-enumeration parser does not skip a line
with fewer than two fields — it raises IndexError (the guard itself
indexes field 1), so the remaining lines are not processed.  Output
whose lines all have two fields parses to the second fields in order. -/
theorem c6_users_malformed_line :
    parseUsers ("1000 alice\nstray\n1001 bob".toList) = Except.error ()
    ∧ resolveUsers ⟨false, false, false, true⟩ envC6 = Except.error ()
    ∧ parseUsers ("1000 alice\n1001 bob".toList) =
      Except.ok [("alice".toList), ("bob".toList)] := by
  refine ⟨by decide, by decide, by decide⟩

theorem parseContainers_length_countP :
    ∀ ls : List Str,
      (ls.filterMap (fun line =>
        if pyStrip line = [] then none else (pySplit line).head?)).length
      = ls.countP (fun l => !(pyStrip l).isEmpty) := by
  intro ls
  induction ls with
  | nil => rfl
  | cons line rest ih =>
    by_cases hb : pyStrip line = []
    · simp [List.filterMap_cons, hb, List.countP_cons, ih]
    · cases hsp : pySplit line with
      | nil => exact absurd hsp (pySplit_ne_nil hb)
      | cons x xs =>
        simp [List.filterMap_cons, hb, hsp, List.countP_cons, ih,
          List.isEmpty_iff]

/-- The container parser skips the header line and each blank line; the
entity count equals the number of non-blank lines after the header, so
a listing of N lines with one header and no blanks yields exactly N − 1
entities. -/
theorem c7_header_skip :
    ∀ out : Str,
      (parseContainers out).length =
        ((splitlines out).drop 1).countP (fun l => !(pyStrip l).isEmpty)
      ∧ (splitlines out ≠ [] →
          (∀ l ∈ (splitlines out).drop 1, pyStrip l ≠ []) →
          (parseContainers out).length + 1 = (splitlines out).length) := by
  intro out
  constructor
  · exact parseContainers_length_countP ((splitlines out).drop 1)
  · intro hne hnb
    have h1 : (parseContainers out).length =
        ((splitlines out).drop 1).length :=
      (parseContainers_length_countP ((splitlines out).drop 1)).trans
        (List.countP_eq_length.2 (fun l hl => by
          simp [List.isEmpty_iff, hnb l hl]))
    rw [h1, List.length_drop]
    have : 0 < (splitlines out).length := List.length_pos.2 hne
    omega

theorem splitNl_ne_nil : ∀ s : Str, splitNl s ≠ [] := by
  intro s
  cases s with
  | nil => simp [splitNl]
  | cons c cs =>
    by_cases hc : c = '\n'
    · simp [splitNl, hc]
    · simp only [splitNl, if_neg hc]
      cases hsp : splitNl cs with
      | nil => simp
      | cons l ls => simp

theorem parseImagesGo_count :
    ∀ ls : List Str, (∀ l ∈ ls, 3 ≤ (pySplit l).length) →
      ∃ imgs, parseImagesGo ls = Except.ok imgs ∧ imgs.length = ls.length := by
  intro ls
  induction ls with
  | nil => intro _; exact ⟨[], rfl, rfl⟩
  | cons line rest ih =>
    intro h
    have h3 : 3 ≤ (pySplit line).length := h line (List.mem_cons_self _ _)
    obtain ⟨imgs, hok, hlen⟩ := ih (fun l hl => h l (List.mem_cons_of_mem _ hl))
    cases hg0 : (pySplit line).get? 0 with
    | none =>
      have := List.get?_eq_none.1 hg0
      omega
    | some a =>
      cases hg1 : (pySplit line).get? 1 with
      | none =>
        have := List.get?_eq_none.1 hg1
        omega
      | some b =>
        cases hg2 : (pySplit line).get? 2 with
        | none =>
          have := List.get?_eq_none.1 hg2
          omega
        | some c2 =>
          refine ⟨(a ++ ':' :: b, c2) :: imgs, ?_, by simp [hlen]⟩
          simp only [parseImagesGo, hg0, hg1, hg2, hok]

/-- C7 (code_bug): the container parser behaves as the claim says
(header skipped, blanks skipped without error, count N − 1 minus
blanks), and the image parser yields N − 1 entities for well-formed
listings — but a blank line in the image listing raises IndexError
instead of being skipped, so over the claim's full scope (both
non-privileged discovery listings) blank lines are not uniformly
"skipped, not errors". -/
theorem c7_discovery_counts :
    parseImages ("REPOSITORY TAG IMAGE_ID\na b c\n\nd e f".toList) =
      Except.error ()
    ∧ (∀ out : Str,
        (parseContainers out).length =
          ((splitlines out).drop 1).countP (fun l => !(pyStrip l).isEmpty)
        ∧ (splitlines out ≠ [] →
            (∀ l ∈ (splitlines out).drop 1, pyStrip l ≠ []) →
            (parseContainers out).length + 1 = (splitlines out).length))
    ∧ (∀ out : Str,
        (∀ l ∈ (splitNl (pyStrip out)).drop 1, 3 ≤ (pySplit l).length) →
        ∃ imgs, parseImages out = Except.ok imgs ∧
          imgs.length + 1 = (splitNl (pyStrip out)).length) := by
  refine ⟨by decide, c7_header_skip, ?_⟩
  intro out h
  obtain ⟨imgs, hok, hlen⟩ := parseImagesGo_count _ h
  refine ⟨imgs, hok, ?_⟩
  rw [hlen, List.length_drop]
  have hpos : 0 < (splitNl (pyStrip out)).length :=
    List.length_pos.2 (splitNl_ne_nil (pyStrip out))
  omega

/-- C7 witness: a three-line container listing yields two entities, and
a three-line well-formed image listing yields two image entities. -/
theorem c7_witness :
    (parseContainers c7Out).length + 1 = (splitlines c7Out).length
    ∧ ∃ imgs, parseImages c7ImgOut = Except.ok imgs ∧
        imgs.length + 1 = (splitNl (pyStrip c7ImgOut)).length :=
  ⟨(c7_discovery_counts.2.1 c7Out).2 (by decide) (by decide),
   c7_discovery_counts.2.2 c7ImgOut (by decide)⟩

/-! ## buildUser structure lemmas -/

theorem mem_buildUser_of_pre :
    ∀ (opts : PodmanOpts) (env : Env) (user : Str) (s : CommandSpec),
      s ∈ baseSpecs (userCmdPrefix user) user ++
          sizeSpecs opts (userCmdPrefix user) user ++
          [netListSpec (userCmdPrefix user) user] →
      s ∈ (buildUser opts env user).specs := by
  intro opts env user s h
  cases hnets : discoveredNets env (userCmdPrefix user) with
  | error e =>
    simp only [buildUser, hnets]
    simpa using h
  | ok nets =>
    cases himg : discoveredImages env user (userCmdPrefix user) with
    | error e =>
      simp only [buildUser, hnets, himg]
      simp only [List.mem_append] at h ⊢
      tauto
    | ok images =>
      simp only [buildUser, hnets, himg]
      simp only [List.mem_append] at h ⊢
      tauto

theorem mem_buildUser_of_imageSpecs :
    ∀ (opts : PodmanOpts) (env : Env) (user : Str)
      (images : List (Str × Str)) (s : CommandSpec),
      (buildUser opts env user).err = false →
      discoveredImages env user (userCmdPrefix user) = Except.ok images →
      s ∈ imageSpecs (userCmdPrefix user) user images →
      s ∈ (buildUser opts env user).specs := by
  intro opts env user images s herr hdisc hs
  cases hnets : discoveredNets env (userCmdPrefix user) with
  | error e => simp [buildUser, hnets] at herr
  | ok nets =>
    simp only [buildUser, hnets, hdisc]
    simp only [List.mem_append]
    tauto

theorem mem_buildUser_of_logSpecs :
    ∀ (opts : PodmanOpts) (env : Env) (user : Str) (s : CommandSpec),
      (buildUser opts env user).err = false →
      s ∈ logSpecs opts (userCmdPrefix user) user
            (discoveredContainers opts env user (userCmdPrefix user)) →
      s ∈ (buildUser opts env user).specs := by
  intro opts env user s herr hs
  cases hnets : discoveredNets env (userCmdPrefix user) with
  | error e => simp [buildUser, hnets] at herr
  | ok nets =>
    cases himg : discoveredImages env user (userCmdPrefix user) with
    | error e => simp [buildUser, hnets, himg] at herr
    | ok images =>
      simp only [buildUser, hnets, himg]
      simp only [List.mem_append]
      tauto

theorem mem_buildUsers_of :
    ∀ (opts : PodmanOpts) (env : Env) (u : Str) (s : CommandSpec)
      (us : List Str),
      u ∈ us → (buildUsers opts env us).err = false →
      s ∈ (buildUser opts env u).specs →
      s ∈ (buildUsers opts env us).specs := by
  intro opts env u s us
  induction us with
  | nil => intro h; cases h
  | cons v rest ih =>
    intro hm herr hmem
    simp only [buildUsers] at herr ⊢
    by_cases hbe : (buildUser opts env v).err = true
    · rw [if_pos hbe] at herr
      rw [hbe] at herr; cases herr
    · rw [if_neg hbe] at herr ⊢
      simp only [List.mem_append]
      rcases List.mem_cons.1 hm with rfl | hm2
      · exact Or.inl hmem
      · exact Or.inr (ih hm2 herr hmem)

/-! ## C1: image inspection target -/

/-- C1 counterexample: the image nonexistent:latest (repository field
"nonexistent", not the placeholder "none") is inspected through its id
abc, because the source tests the substring "none" against the whole
repo:tag string; the claim instead requires the repo:tag target here. -/
theorem c1_counterexample :
    discoveredImages envC1 ("alice".toList) (userCmdPrefix ("alice".toList)) =
      Except.ok [(("nonexistent:latest".toList), ("abc".toList))]
    ∧ ("nonexistent".toList) ≠ ("none".toList)
    ∧ (⟨("sudo -u alice podman inspect abc".toList), ("alice/images".toList),
        [("podman_image_inspect".toList)], none⟩ : CommandSpec)
        ∈ (buildUser ⟨false, false, false, false⟩ envC1 ("alice".toList)).specs
    ∧ (⟨("sudo -u alice podman inspect nonexistent:latest".toList),
        ("alice/images".toList),
        [("podman_image_inspect".toList)], none⟩ : CommandSpec)
        ∉ (buildUser ⟨false, false, false, false⟩ envC1 ("alice".toList)).specs
      := by
  refine ⟨by decide, by decide, by decide, by decide⟩

/-- C1 (corrected): for every discovered Image entity the inspect and
image-dependency-tree target is the repo:tag string when "none" does
not occur as a substring of the whole "repository:tag" name, and is the
image id when "none" does occur in it (which covers the untagged
placeholder, but also any repository or tag merely containing "none"). -/
theorem c1_amended_image_target :
    ∀ (opts : PodmanOpts) (env : Env) (user : Str)
      (images : List (Str × Str)) (name iid : Str),
      discoveredImages env user (userCmdPrefix user) = Except.ok images →
      (buildUser opts env user).err = false →
      (name, iid) ∈ images →
      ((hasSubstr name ("none".toList) = false →
          (⟨userCmdPrefix user ++ (" podman inspect ".toList) ++ name,
             user ++ ("/images".toList),
             [("podman_image_inspect".toList)], none⟩ : CommandSpec)
            ∈ (buildUser opts env user).specs ∧
          (⟨userCmdPrefix user ++ (" podman image tree ".toList) ++ name,
             user ++ ("/images/tree".toList),
             [("podman_image_tree".toList)], none⟩ : CommandSpec)
            ∈ (buildUser opts env user).specs)
       ∧ (hasSubstr name ("none".toList) = true →
          (⟨userCmdPrefix user ++ (" podman inspect ".toList) ++ iid,
             user ++ ("/images".toList),
             [("podman_image_inspect".toList)], none⟩ : CommandSpec)
            ∈ (buildUser opts env user).specs ∧
          (⟨userCmdPrefix user ++ (" podman image tree ".toList) ++ iid,
             user ++ ("/images/tree".toList),
             [("podman_image_tree".toList)], none⟩ : CommandSpec)
            ∈ (buildUser opts env user).specs)) := by
  intro opts env user images name iid hdisc herr hmem
  constructor
  · intro hnone
    constructor
    · exact mem_buildUser_of_imageSpecs opts env user images _ herr hdisc
        (List.mem_flatMap.2 ⟨(name, iid), hmem, by
          have hn : hasSubstr name (['n', 'o', 'n', 'e'] : Str) = _ := hnone
          simp [imageTarget, hn]⟩)
    · exact mem_buildUser_of_imageSpecs opts env user images _ herr hdisc
        (List.mem_flatMap.2 ⟨(name, iid), hmem, by
          have hn : hasSubstr name (['n', 'o', 'n', 'e'] : Str) = _ := hnone
          simp [imageTarget, hn]⟩)
  · intro hnone
    constructor
    · exact mem_buildUser_of_imageSpecs opts env user images _ herr hdisc
        (List.mem_flatMap.2 ⟨(name, iid), hmem, by
          have hn : hasSubstr name (['n', 'o', 'n', 'e'] : Str) = _ := hnone
          simp [imageTarget, hn]⟩)
    · exact mem_buildUser_of_imageSpecs opts env user images _ herr hdisc
        (List.mem_flatMap.2 ⟨(name, iid), hmem, by
          have hn : hasSubstr name (['n', 'o', 'n', 'e'] : Str) = _ := hnone
          simp [imageTarget, hn]⟩)

/-- C1 witness: the image r:t (no "none" substring) is inspected under
its repo:tag name r:t. -/
theorem c1_witness :
    (⟨userCmdPrefix ("alice".toList) ++ (" podman inspect ".toList) ++
        ("r:t".toList), ("alice".toList) ++ ("/images".toList),
      [("podman_image_inspect".toList)], none⟩ : CommandSpec)
      ∈ (buildUser ⟨false, false, false, false⟩ envC1b
          ("alice".toList)).specs :=
  ((c1_amended_image_target ⟨false, false, false, false⟩ envC1b
      ("alice".toList) [(("r:t".toList), ("i".toList))]
      ("r:t".toList) ("i".toList)
      (by decide) (by decide) (by decide)).1 (by decide)).1

/-! ## C9: the privileged identity is exempt from the liveness probe -/

/-- C9 (confirmed): root is never liveness-probed and its plan does not
depend on probe outcomes: the root keep-decision is true for every
environment, the whole root emission is unchanged when the responses of
every probe-shaped command (suffix " podman ps -aq") are replaced
arbitrarily, and whenever root is among the resolved users of a
completed setup run, root's catalog specs are in the emitted plan. -/
theorem c9_root_exempt :
    ∀ (opts : PodmanOpts) (env : Env) (run₂ : Str → CmdResult),
      (∀ c : Str, (" podman ps -aq".toList).isSuffixOf c = false →
        run₂ c = env.run c) →
      keepUser { env with run := run₂ } ("root".toList) = true
      ∧ buildUser opts { env with run := run₂ } ("root".toList) =
          buildUser opts env ("root".toList)
      ∧ (∀ users, resolveUsers opts env = Except.ok users →
          ("root".toList) ∈ users →
          (setupOut opts env).err = false →
          (⟨(" podman info".toList), ("root/".toList), [], none⟩ :
              CommandSpec) ∈ (setupOut opts env).specs) := by
  intro opts env run₂ hagree
  have henv : ({ env with run := run₂ } : Env).run = run₂ := rfl
  refine ⟨by simp [keepUser], ?_, ?_⟩
  · have h1 : discoveredNets { env with run := run₂ }
        (userCmdPrefix ("root".toList)) =
        discoveredNets env (userCmdPrefix ("root".toList)) := by
      unfold discoveredNets
      rw [henv, hagree _ (by decide)]
    have h3 : discoveredImages { env with run := run₂ } ("root".toList)
        (userCmdPrefix ("root".toList)) =
        discoveredImages env ("root".toList)
          (userCmdPrefix ("root".toList)) := by
      simp [discoveredImages]
    have h4 : discoveredContainers opts { env with run := run₂ }
        ("root".toList) (userCmdPrefix ("root".toList)) =
        discoveredContainers opts env ("root".toList)
          (userCmdPrefix ("root".toList)) := by
      simp [discoveredContainers]
    have h5 : discoveredVolumes { env with run := run₂ } ("root".toList)
        (userCmdPrefix ("root".toList)) =
        discoveredVolumes env ("root".toList)
          (userCmdPrefix ("root".toList)) := by
      simp [discoveredVolumes]
    simp only [buildUser, h1, h3, h4, h5]
  · intro users hres hmem herr
    have hkept : ("root".toList) ∈ keptUsers env users :=
      List.mem_filter.2 ⟨hmem, by simp [keepUser]⟩
    have hsetup : setupOut opts env = buildUsers opts env
        (keptUsers env users) := by
      unfold setupOut; rw [hres]
    rw [hsetup] at herr ⊢
    refine mem_buildUsers_of opts env ("root".toList) _ _ hkept herr ?_
    refine mem_buildUser_of_pre opts env ("root".toList) _ ?_
    simp only [List.mem_append]
    refine Or.inl (Or.inl (List.mem_map.2 ⟨("info".toList), by decide,
      by decide⟩))

/-- C9 witness: in an environment where every external command fails,
root is kept, its emission is probe-independent, and its catalog spec
is in the completed plan. -/
theorem c9_witness :
    (⟨(" podman info".toList), ("root/".toList), [], none⟩ : CommandSpec)
      ∈ (setupOut ⟨false, false, false, false⟩ envC9).specs :=
  (c9_root_exempt ⟨false, false, false, false⟩ envC9 envC9.run
      (fun _ _ => rfl)).2.2 [("root".toList)] (by decide) (by decide)
      (by decide)

/-! ## C10: scheduling priorities -/

theorem mem_baseSpecs_priority {c u : Str} {s : CommandSpec}
    (h : s ∈ baseSpecs c u) : s.priority = none := by
  rcases List.mem_map.1 h with ⟨x, _, rfl⟩; rfl

theorem mem_sizeSpecs_inv {opts : PodmanOpts} {c u : Str} {s : CommandSpec}
    (h : s ∈ sizeSpecs opts c u) :
    s.priority = some 100 ∧ opts.size = true ∧
      s.cmd = c ++ (" podman ps -as".toList) := by
  unfold sizeSpecs at h
  split at h
  · rcases List.mem_singleton.1 h with rfl
    exact ⟨rfl, by assumption, rfl⟩
  · cases h

theorem mem_netInspectSpecs_priority {c u : Str} {nets : List Str}
    {s : CommandSpec} (h : s ∈ netInspectSpecs c u nets) :
    s.priority = none := by
  rcases List.mem_map.1 h with ⟨x, _, rfl⟩; rfl

theorem mem_imageCollectSpecs_priority {u c : Str} {s : CommandSpec}
    (h : s ∈ imageCollectSpecs u c) : s.priority = none := by
  unfold imageCollectSpecs at h
  split at h
  · cases h
  · rcases List.mem_singleton.1 h with rfl; rfl

theorem mem_containerSpecs_priority {c u : Str} {cons : List Str}
    {s : CommandSpec} (h : s ∈ containerSpecs c u cons) :
    s.priority = none := by
  rcases List.mem_map.1 h with ⟨x, _, rfl⟩; rfl

theorem mem_imageSpecs_priority {c u : Str} {images : List (Str × Str)}
    {s : CommandSpec} (h : s ∈ imageSpecs c u images) :
    s.priority = none := by
  rcases List.mem_flatMap.1 h with ⟨p, _, hp⟩
  rcases List.mem_cons.1 hp with rfl | hp2
  · rfl
  · rcases List.mem_singleton.1 hp2 with rfl; rfl

theorem mem_volumeSpecs_priority {c u : Str} {vols : List Str}
    {s : CommandSpec} (h : s ∈ volumeSpecs c u vols) :
    s.priority = none := by
  rcases List.mem_map.1 h with ⟨x, _, rfl⟩; rfl

theorem mem_logSpecs_inv {opts : PodmanOpts} {c u : Str} {cons : List Str}
    {s : CommandSpec} (h : s ∈ logSpecs opts c u cons) :
    s.priority = some 50 ∧ opts.logs = true ∧
      ∃ con ∈ cons, s.cmd = c ++ (" podman logs -t ".toList) ++ con := by
  unfold logSpecs at h
  split at h
  · rcases List.mem_map.1 h with ⟨x, hx, rfl⟩
    exact ⟨rfl, by assumption, x, hx, rfl⟩
  · cases h

/-- C10 (confirmed): in every emitted plan, the only specs carrying a
priority are the size-option extended process listing (priority 100)
and the log-retrieval specs (priority 50); the size spec is emitted
whenever the size option is on, log specs are emitted for each
discovered container when the logs option is on, and 50 < 100, so log
commands always carry a strictly smaller priority value than the size
listing. -/
theorem c10_priorities :
    ∀ (opts : PodmanOpts) (env : Env) (user : Str),
      (∀ s ∈ (buildUser opts env user).specs,
        s.priority = none
        ∨ (s.priority = some 100 ∧ opts.size = true ∧
           s.cmd = userCmdPrefix user ++ (" podman ps -as".toList))
        ∨ (s.priority = some 50 ∧ opts.logs = true ∧
           ∃ con ∈ discoveredContainers opts env user (userCmdPrefix user),
             s.cmd = userCmdPrefix user ++ (" podman logs -t ".toList) ++ con))
      ∧ (opts.size = true →
          (⟨userCmdPrefix user ++ (" podman ps -as".toList),
            user ++ ('/' :: []), [], some 100⟩ : CommandSpec)
            ∈ (buildUser opts env user).specs)
      ∧ ((buildUser opts env user).err = false → opts.logs = true →
          ∀ con ∈ discoveredContainers opts env user (userCmdPrefix user),
            (⟨userCmdPrefix user ++ (" podman logs -t ".toList) ++ con,
              user ++ ("/containers".toList), [], some 50⟩ : CommandSpec)
              ∈ (buildUser opts env user).specs)
      ∧ 50 < 100 := by
  intro opts env user
  refine ⟨?_, ?_, ?_, by omega⟩
  · intro s hs
    cases hnets : discoveredNets env (userCmdPrefix user) with
    | error e =>
      simp only [buildUser, hnets] at hs
      simp only [List.mem_append, List.mem_singleton] at hs
      rcases hs with (h | h) | rfl
      · exact Or.inl (mem_baseSpecs_priority h)
      · exact Or.inr (Or.inl (mem_sizeSpecs_inv h))
      · exact Or.inl rfl
    | ok nets =>
      cases himg : discoveredImages env user (userCmdPrefix user) with
      | error e =>
        simp only [buildUser, hnets, himg] at hs
        simp only [List.mem_append, List.mem_singleton] at hs
        rcases hs with (((h | h) | rfl) | h) | h
        · exact Or.inl (mem_baseSpecs_priority h)
        · exact Or.inr (Or.inl (mem_sizeSpecs_inv h))
        · exact Or.inl rfl
        · exact Or.inl (mem_netInspectSpecs_priority h)
        · exact Or.inl (mem_imageCollectSpecs_priority h)
      | ok images =>
        simp only [buildUser, hnets, himg] at hs
        simp only [List.mem_append, List.mem_singleton] at hs
        rcases hs with ((((((((h | h) | rfl) | h) | h) | h) | h) | h) | h)
        · exact Or.inl (mem_baseSpecs_priority h)
        · exact Or.inr (Or.inl (mem_sizeSpecs_inv h))
        · exact Or.inl rfl
        · exact Or.inl (mem_netInspectSpecs_priority h)
        · exact Or.inl (mem_imageCollectSpecs_priority h)
        · exact Or.inl (mem_containerSpecs_priority h)
        · exact Or.inl (mem_imageSpecs_priority h)
        · exact Or.inl (mem_volumeSpecs_priority h)
        · exact Or.inr (Or.inr (mem_logSpecs_inv h))
  · intro hsize
    refine mem_buildUser_of_pre opts env user _ ?_
    simp only [List.mem_append]
    refine Or.inl (Or.inr ?_)
    unfold sizeSpecs
    rw [if_pos hsize]
    exact List.mem_singleton.2 rfl
  · intro herr hlogs con hcon
    refine mem_buildUser_of_logSpecs opts env user _ herr ?_
    unfold logSpecs
    rw [if_pos hlogs]
    exact List.mem_map.2 ⟨con, hcon, rfl⟩

/-- C10 witness: with size and logs enabled and one discovered
container c1 for dave, the plan holds the size spec at priority 100 and
the log spec at priority 50. -/
theorem c10_witness :
    (⟨userCmdPrefix ("dave".toList) ++ (" podman ps -as".toList),
      ("dave".toList) ++ ('/' :: []), [], some 100⟩ : CommandSpec)
      ∈ (buildUser ⟨false, true, true, false⟩ envC10 ("dave".toList)).specs
    ∧ (⟨userCmdPrefix ("dave".toList) ++ (" podman logs -t ".toList) ++
        ("c1".toList), ("dave".toList) ++ ("/containers".toList), [],
        some 50⟩ : CommandSpec)
      ∈ (buildUser ⟨false, true, true, false⟩ envC10 ("dave".toList)).specs :=
  ⟨(c10_priorities ⟨false, true, true, false⟩ envC10 ("dave".toList)).2.1
      rfl,
   (c10_priorities ⟨false, true, true, false⟩ envC10
      ("dave".toList)).2.2.1 (by decide) rfl ("c1".toList) (by decide)⟩

/-! ## Redaction: basic lemmas -/

theorem pfxB_iff : ∀ (a b : Str), pfxB a b = true ↔ Pfx a b := by
  intro a
  induction a with
  | nil =>
    intro b
    simp only [pfxB]
    constructor
    · intro _; exact ⟨b, (List.nil_append b).symm⟩
    · intro _; trivial
  | cons x xs ih =>
    intro b
    cases b with
    | nil =>
      simp only [pfxB, Pfx]
      constructor
      · intro h; cases h
      · rintro ⟨u, h⟩; cases h
    | cons y ys =>
      simp only [pfxB, Bool.and_eq_true, beq_iff_eq, ih]
      constructor
      · rintro ⟨rfl, u, rfl⟩; exact ⟨u, rfl⟩
      · rintro ⟨u, h⟩
        injection h with h1 h2
        exact ⟨h1.symm, u, h2⟩

theorem pfx_trans {a b c : Str} (h1 : Pfx a b) (h2 : Pfx b c) : Pfx a c := by
  obtain ⟨u1, rfl⟩ := h1
  obtain ⟨u2, rfl⟩ := h2
  exact ⟨u1 ++ u2, by rw [List.append_assoc]⟩

theorem pfx_of_append_cons :
    ∀ (a : Str) (x : Char) (z w : Str), Pfx w (a ++ x :: z) → x ∉ w →
      Pfx w a := by
  intro a
  induction a with
  | nil =>
    intro x z w hp hx
    cases w with
    | nil => exact ⟨[], rfl⟩
    | cons c w₂ =>
      obtain ⟨u, hu⟩ := hp
      rw [List.nil_append] at hu
      injection hu with h1 _
      exact absurd (h1 ▸ List.mem_cons_self c w₂) hx
  | cons b a₂ ih =>
    intro x z w hp hx
    cases w with
    | nil => exact ⟨b :: a₂, rfl⟩
    | cons c w₂ =>
      obtain ⟨u, hu⟩ := hp
      rw [List.cons_append] at hu
      injection hu with h1 h2
      subst h1
      have hx2 : x ∉ w₂ := fun hm => hx (List.mem_cons_of_mem _ hm)
      obtain ⟨u₂, hu₂⟩ := ih x z w₂ ⟨u, h2⟩ hx2
      exact ⟨u₂, by rw [List.cons_append, hu₂]⟩

theorem pfx_line {w l r : Str} (hp : Pfx w (l ++ r)) (hw : '\n' ∉ w)
    (hr : LineSep r) : Pfx w l := by
  rcases hr with rfl | ⟨r₂, rfl⟩
  · rwa [List.append_nil] at hp
  · exact pfx_of_append_cons l '\n' r₂ w hp hw

theorem takeToChar_some_inv {ch : Char} :
    ∀ {s b a : Str}, takeToChar ch s = some (b, a) →
      s = b ++ ch :: a ∧ ch ∉ b ∧ '\n' ∉ b := by
  intro s
  induction s with
  | nil => intro b a h; cases h
  | cons c cs ih =>
    intro b a h
    simp only [takeToChar] at h
    by_cases h1 : c = ch
    · rw [if_pos h1] at h
      injection h with h2
      injection h2 with hb ha
      subst hb; subst ha; subst h1
      exact ⟨rfl, by simp, by simp⟩
    · rw [if_neg h1] at h
      by_cases h2 : c = '\n'
      · rw [if_pos h2] at h; cases h
      · rw [if_neg h2] at h
        cases h3 : takeToChar ch cs with
        | none => rw [h3] at h; cases h
        | some p =>
          rw [h3] at h
          injection h with h4
          injection h4 with hb ha
          obtain ⟨hs, hm, hn⟩ := ih (b := p.1) (a := p.2) (by rw [h3])
          subst hb; subst ha
          refine ⟨by rw [List.cons_append, hs], ?_, ?_⟩
          · intro hmem
            rcases List.mem_cons.1 hmem with rfl | hmem2
            · exact h1 rfl
            · exact hm hmem2
          · intro hmem
            rcases List.mem_cons.1 hmem with rfl | hmem2
            · exact h2 rfl
            · exact hn hmem2

theorem takeToChar_none_of_not_mem {ch : Char} :
    ∀ {s : Str}, ch ∉ s → takeToChar ch s = none := by
  intro s
  induction s with
  | nil => intro _; rfl
  | cons c cs ih =>
    intro h
    have h1 : c ≠ ch := fun he => h (he ▸ List.mem_cons_self c cs)
    have h2 : ch ∉ cs := fun hm => h (List.mem_cons_of_mem _ hm)
    simp only [takeToChar, if_neg h1]
    by_cases h3 : c = '\n'
    · rw [if_pos h3]
    · rw [if_neg h3, ih h2]

theorem takeToChar_not_mem_of_none {ch : Char} :
    ∀ {s : Str}, '\n' ∉ s → takeToChar ch s = none → ch ∉ s := by
  intro s
  induction s with
  | nil => intro _ _; simp
  | cons c cs ih =>
    intro hn h
    simp only [takeToChar] at h
    by_cases h1 : c = ch
    · rw [if_pos h1] at h; cases h
    · rw [if_neg h1] at h
      have h3 : c ≠ '\n' := fun he => hn (he ▸ List.mem_cons_self c cs)
      rw [if_neg h3] at h
      cases h4 : takeToChar ch cs with
      | none =>
        have h5 : ch ∉ cs :=
          ih (fun hm => hn (List.mem_cons_of_mem _ hm)) h4
        intro hmem
        rcases List.mem_cons.1 hmem with rfl | hmem2
        · exact h1 rfl
        · exact h5 hmem2
      | some p => rw [h4] at h; cases h

theorem takeToChar_append_left {ch : Char} (hch : ch ≠ '\n') :
    ∀ (u r : Str), LineSep r →
      takeToChar ch (u ++ r) =
        Option.map (fun p => (p.1, p.2 ++ r)) (takeToChar ch u) := by
  intro u
  induction u with
  | nil =>
    intro r hr
    rcases hr with rfl | ⟨r₂, rfl⟩
    · rfl
    · simp only [List.nil_append, takeToChar, if_neg (Ne.symm hch), if_pos rfl]
      rfl
  | cons c cs ih =>
    intro r hr
    simp only [List.cons_append, takeToChar, List.append_eq]
    by_cases h1 : c = ch
    · rw [if_pos h1, if_pos h1]; rfl
    · rw [if_neg h1, if_neg h1]
      by_cases h2 : c = '\n'
      · rw [if_pos h2, if_pos h2]; rfl
      · rw [if_neg h2, if_neg h2, ih r hr]
        cases takeToChar ch cs with
        | none => rfl
        | some p => rfl

theorem takeToChar_append_found {ch : Char} :
    ∀ {b : Str} (a : Str), ch ∉ b → '\n' ∉ b →
      takeToChar ch (b ++ ch :: a) = some (b, a) := by
  intro b
  induction b with
  | nil => intro a _ _; simp [takeToChar]
  | cons c b₂ ih =>
    intro a hm hn
    have h1 : c ≠ ch := fun he => hm (he ▸ List.mem_cons_self c b₂)
    have h2 : c ≠ '\n' := fun he => hn (he ▸ List.mem_cons_self c b₂)
    simp only [List.cons_append, takeToChar, List.append_eq, if_neg h1,
      if_neg h2]
    rw [ih a (fun h => hm (List.mem_cons_of_mem _ h))
      (fun h => hn (List.mem_cons_of_mem _ h))]

theorem triggers_facts :
    ∀ t ∈ triggers, t ≠ [] ∧ '=' ∉ t ∧ '\n' ∉ t ∧ '"' ∉ t := by decide

theorem matchTrigger_some_inv {s t : Str} (h : matchTrigger s = some t) :
    t ∈ triggers ∧ Pfx t s := by
  unfold matchTrigger at h
  split_ifs at h with h1 h2 h3 h4 h5 h6 <;>
    first
      | (injection h with h0; subst h0;
         exact ⟨by decide, (pfxB_iff _ _).1 (by assumption)⟩)
      | cases h

theorem matchTrigger_of_pfx {s t : Str} (ht : t ∈ triggers) (hp : Pfx t s) :
    matchTrigger s = some t := by
  simp only [triggers, List.mem_cons] at ht
  rcases ht with rfl | rfl | rfl | rfl | rfl | rfl | h
  · obtain ⟨u, rfl⟩ := hp; rfl
  · obtain ⟨u, rfl⟩ := hp; rfl
  · obtain ⟨u, rfl⟩ := hp; rfl
  · obtain ⟨u, rfl⟩ := hp; rfl
  · obtain ⟨u, rfl⟩ := hp; rfl
  · obtain ⟨u, rfl⟩ := hp; rfl
  · cases h

theorem matchTrigger_newline (x : Str) : matchTrigger ('\n' :: x) = none := rfl

theorem matchEnvAt_newline (x : Str) : matchEnvAt ('\n' :: x) = none := by
  unfold matchEnvAt
  rw [matchTrigger_newline]

theorem chainEnv_some_inv {t u var v rest : Str}
    (h : chainEnv t u = some (var, v, rest)) :
    ∃ mid, var = t ++ mid ∧ u = mid ++ '=' :: v ++ '"' :: rest ∧
      '=' ∉ mid ∧ '\n' ∉ mid ∧ '"' ∉ v ∧ '\n' ∉ v := by
  unfold chainEnv at h
  cases h2 : takeToChar '=' u with
  | none => simp only [h2] at h; cases h
  | some p =>
    obtain ⟨mid, s2⟩ := p
    simp only [h2] at h
    cases h3 : takeToChar '"' s2 with
    | none => simp only [h3] at h; cases h
    | some q =>
      obtain ⟨v2, rest2⟩ := q
      simp only [h3, Option.some.injEq, Prod.mk.injEq] at h
      obtain ⟨hvar, hv, hrest⟩ := h
      subst hvar; subst hv; subst hrest
      obtain ⟨hu2, hm2, hn2⟩ := takeToChar_some_inv h2
      obtain ⟨hs2, hm3, hn3⟩ := takeToChar_some_inv h3
      refine ⟨mid, rfl, ?_, hm2, hn2, hm3, hn3⟩
      rw [hu2, hs2]
      simp

theorem chainEnv_append (t u r : Str) (hr : LineSep r) :
    chainEnv t (u ++ r) =
      Option.map (fun q => (q.1, q.2.1, q.2.2 ++ r)) (chainEnv t u) := by
  unfold chainEnv
  rw [takeToChar_append_left (by decide) u r hr]
  cases h2 : takeToChar '=' u with
  | none => rfl
  | some p =>
    obtain ⟨mid, z⟩ := p
    simp only [Option.map_some']
    rw [takeToChar_append_left (by decide) z r hr]
    cases h3 : takeToChar '"' z with
    | none => rfl
    | some q => rfl

theorem chainEnv_none_inv {t u : Str} (hn : '\n' ∉ u)
    (h : chainEnv t u = none) :
    '=' ∉ u ∨ ∃ mid z, u = mid ++ '=' :: z ∧ '=' ∉ mid ∧ '"' ∉ z := by
  cases h2 : takeToChar '=' u with
  | none => exact Or.inl (takeToChar_not_mem_of_none hn h2)
  | some p =>
    obtain ⟨mid, z⟩ := p
    simp only [chainEnv, h2] at h
    obtain ⟨hu2, hm2, hn2⟩ := takeToChar_some_inv h2
    cases h3 : takeToChar '"' z with
    | none =>
      have hzn : '\n' ∉ z := fun hm => hn (by
        rw [hu2]
        exact List.mem_append_right mid (List.mem_cons_of_mem _ hm))
      exact Or.inr ⟨mid, z, hu2, hm2, takeToChar_not_mem_of_none hzn h3⟩
    | some q => rw [h3] at h; cases h

theorem chainEnv_found {mid v : Str} (t rest : Str) (hm : '=' ∉ mid)
    (hn : '\n' ∉ mid) (hqv : '"' ∉ v) (hnv : '\n' ∉ v) :
    chainEnv t (mid ++ '=' :: (v ++ '"' :: rest)) = some (t ++ mid, v, rest) := by
  unfold chainEnv
  rw [takeToChar_append_found _ hm hn]
  simp only
  rw [takeToChar_append_found _ hqv hnv]

theorem matchEnvAt_some_inv {s var v rest : Str}
    (h : matchEnvAt s = some (var, v, rest)) :
    ∃ t mid, t ∈ triggers ∧ var = t ++ mid ∧ '=' ∉ mid ∧ '\n' ∉ mid ∧
      '"' ∉ v ∧ '\n' ∉ v ∧ s = var ++ '=' :: v ++ '"' :: rest := by
  unfold matchEnvAt at h
  cases ht : matchTrigger s with
  | none => simp only [ht] at h; cases h
  | some t =>
    simp only [ht] at h
    obtain ⟨htm, u, hu⟩ := matchTrigger_some_inv ht
    have hdrop : s.drop t.length = u := by
      rw [hu, List.drop_left]
    rw [hdrop] at h
    obtain ⟨mid, hvar, hu2, hm2, hn2, hm3, hn3⟩ := chainEnv_some_inv h
    refine ⟨t, mid, htm, hvar, hm2, hn2, hm3, hn3, ?_⟩
    rw [hu, hu2, hvar]
    simp [List.append_assoc]

theorem matchEnvAt_rest_length {s var v rest : Str}
    (h : matchEnvAt s = some (var, v, rest)) :
    rest.length < s.length := by
  obtain ⟨t, mid, _, _, _, _, _, _, hs⟩ := matchEnvAt_some_inv h
  rw [hs]
  simp [List.length_append]
  omega

theorem envSubGo_irrel :
    ∀ (f1 : Nat) (s : Str), s.length ≤ f1 → ∀ f2 : Nat, s.length ≤ f2 →
      envSubGo f1 s = envSubGo f2 s := by
  intro f1
  induction f1 with
  | zero =>
    intro s h f2 h2
    have : s = [] := List.length_eq_zero.1 (Nat.le_zero.1 h)
    subst this
    cases f2 <;> rfl
  | succ n ih =>
    intro s h f2 h2
    cases s with
    | nil => cases f2 <;> rfl
    | cons c cs =>
      cases f2 with
      | zero => simp at h2
      | succ m =>
        cases hm : matchEnvAt (c :: cs) with
        | none =>
          simp only [envSubGo, hm]
          simp only [List.length_cons] at h h2
          rw [ih cs (by omega) m (by omega)]
        | some p =>
          obtain ⟨var, v, rest⟩ := p
          have hrl := matchEnvAt_rest_length hm
          simp only [List.length_cons] at h h2 hrl
          simp only [envSubGo, hm]
          rw [ih rest (by omega) m (by omega)]

theorem envSubGo_fuel (fuel : Nat) (s : Str) (h : s.length ≤ fuel) :
    envSubGo fuel s = envSub s :=
  envSubGo_irrel fuel s h s.length le_rfl

theorem envSub_cons_none {c : Char} {cs : Str}
    (h : matchEnvAt (c :: cs) = none) : envSub (c :: cs) = c :: envSub cs := by
  show envSubGo (cs.length + 1) (c :: cs) = _
  simp only [envSubGo, h]
  rw [envSubGo_fuel cs.length cs le_rfl]

theorem envSub_eq_of_some {s var v rest : Str}
    (h : matchEnvAt s = some (var, v, rest)) :
    envSub s = var ++ '=' :: (stars ++ '"' :: envSub rest) := by
  cases s with
  | nil => cases h
  | cons c cs =>
    show envSubGo (cs.length + 1) (c :: cs) = _
    simp only [envSubGo, h]
    have hrl : rest.length ≤ cs.length := by
      have := matchEnvAt_rest_length h
      simp only [List.length_cons] at this; omega
    rw [envSubGo_fuel cs.length rest hrl]

/-! ## Redaction: line-level lemmas -/

theorem eqThenQuoteFree_tail {c : Char} {cs : Str}
    (h : eqThenQuoteFree (c :: cs) = true) : eqThenQuoteFree cs = true := by
  simp only [eqThenQuoteFree, Bool.and_eq_true] at h
  exact h.2

theorem eqThenQuoteFree_spec :
    ∀ (a l z : Str), eqThenQuoteFree l = true → l = a ++ '=' :: z →
      '"' ∉ z := by
  intro a
  induction a with
  | nil =>
    intro l z h hl
    rw [List.nil_append] at hl
    subst hl
    simp [eqThenQuoteFree] at h
    exact h.1
  | cons b a₂ ih =>
    intro l z h hl
    rw [List.cons_append] at hl
    subst hl
    exact ih _ z (eqThenQuoteFree_tail h) rfl

theorem eqThenQuoteFree_of_no_eq : ∀ {l : Str}, '=' ∉ l →
    eqThenQuoteFree l = true := by
  intro l
  induction l with
  | nil => intro _; rfl
  | cons c cs ih =>
    intro h
    have h1 : c ≠ '=' := fun he => h (he ▸ List.mem_cons_self c cs)
    simp only [eqThenQuoteFree, if_neg h1, Bool.true_and]
    exact ih (fun hm => h (List.mem_cons_of_mem _ hm))

theorem eqThenQuoteFree_of_no_quote : ∀ {l : Str}, '"' ∉ l →
    eqThenQuoteFree l = true := by
  intro l
  induction l with
  | nil => intro _; rfl
  | cons c cs ih =>
    intro h
    have h2 : '"' ∉ cs := fun hm => h (List.mem_cons_of_mem _ hm)
    simp only [eqThenQuoteFree, Bool.and_eq_true]
    refine ⟨?_, ih h2⟩
    by_cases h1 : c = '='
    · simp [if_pos h1, h2]
    · simp [if_neg h1]

theorem eqThenQuoteFree_append {a z : Str} (ha : '=' ∉ a) (hz : '"' ∉ z) :
    eqThenQuoteFree (a ++ '=' :: z) = true := by
  induction a with
  | nil =>
    simp [eqThenQuoteFree, hz, eqThenQuoteFree_of_no_quote hz]
  | cons b a₂ ih =>
    have h1 : b ≠ '=' := fun he => ha (he ▸ List.mem_cons_self b a₂)
    simp only [List.cons_append, eqThenQuoteFree, if_neg h1, Bool.true_and]
    exact ih (fun hm => ha (List.mem_cons_of_mem _ hm))

theorem line_split : ∀ cs : Str, ∃ L R, cs = L ++ R ∧ '\n' ∉ L ∧ LineSep R := by
  intro cs
  induction cs with
  | nil => exact ⟨[], [], rfl, by simp, Or.inl rfl⟩
  | cons c cs₂ ih =>
    by_cases hc : c = '\n'
    · subst hc
      exact ⟨[], '\n' :: cs₂, rfl, by simp, Or.inr ⟨cs₂, rfl⟩⟩
    · obtain ⟨L, R, hcs, hL, hR⟩ := ih
      refine ⟨c :: L, R, by rw [List.cons_append, ← hcs], ?_, hR⟩
      intro hm
      rcases List.mem_cons.1 hm with rfl | hm2
      · exact hc rfl
      · exact hL hm2

theorem lineSep_envSub {r : Str} (h : LineSep r) : LineSep (envSub r) := by
  rcases h with rfl | ⟨r₂, rfl⟩
  · exact Or.inl rfl
  · rw [envSub_cons_none (matchEnvAt_newline r₂)]
    exact Or.inr ⟨envSub r₂, rfl⟩

theorem matchEnvAt_none_of_clean :
    ∀ (l r : Str), '\n' ∉ l → eqThenQuoteFree l = true → LineSep r →
      matchEnvAt (l ++ r) = none := by
  intro l r hn hq hr
  cases ht : matchTrigger (l ++ r) with
  | none => simp only [matchEnvAt, ht]
  | some t =>
    obtain ⟨htm, hp⟩ := matchTrigger_some_inv ht
    have htn : '\n' ∉ t := (triggers_facts t htm).2.2.1
    obtain ⟨l₂, hl⟩ := pfx_line hp htn hr
    have hdrop : (l ++ r).drop t.length = l₂ ++ r := by
      rw [hl, List.append_assoc, List.drop_left]
    have hchain : chainEnv t l₂ = none := by
      cases h2 : takeToChar '=' l₂ with
      | none => simp [chainEnv, h2]
      | some p =>
        obtain ⟨mid, z⟩ := p
        obtain ⟨hl₂, hm2, hn2⟩ := takeToChar_some_inv h2
        have hz : '"' ∉ z := eqThenQuoteFree_spec (t ++ mid) l z hq (by
          rw [hl, hl₂, List.append_assoc])
        simp [chainEnv, h2, takeToChar_none_of_not_mem hz]
    simp only [matchEnvAt, ht, hdrop, chainEnv_append t l₂ r hr, hchain,
      Option.map_none']

theorem envSub_line :
    ∀ (l r : Str), '\n' ∉ l → eqThenQuoteFree l = true → LineSep r →
      envSub (l ++ r) = l ++ envSub r := by
  intro l
  induction l with
  | nil => intro r _ _ _; rw [List.nil_append, List.nil_append]
  | cons c l₂ ih =>
    intro r hn hq hr
    have hnone : matchEnvAt ((c :: l₂) ++ r) = none :=
      matchEnvAt_none_of_clean (c :: l₂) r hn hq hr
    rw [List.cons_append] at hnone
    rw [List.cons_append, envSub_cons_none hnone,
      ih r (fun hm => hn (List.mem_cons_of_mem _ hm))
        (eqThenQuoteFree_tail hq) hr, List.cons_append]

theorem envSub_pfx_reflect :
    ∀ (n : Nat) (s w : Str), s.length ≤ n → '=' ∉ w → Pfx w (envSub s) →
      Pfx w s := by
  intro n
  induction n with
  | zero =>
    intro s w h hw hp
    have hs : s = [] := List.length_eq_zero.1 (Nat.le_zero.1 h)
    subst hs
    exact hp
  | succ n ih =>
    intro s w h hw hp
    cases s with
    | nil => exact hp
    | cons c cs =>
      cases hm : matchEnvAt (c :: cs) with
      | none =>
        rw [envSub_cons_none hm] at hp
        cases w with
        | nil => exact ⟨c :: cs, rfl⟩
        | cons w₀ w₂ =>
          obtain ⟨u, hu⟩ := hp
          rw [List.cons_append] at hu
          injection hu with h1 h2
          subst h1
          have hw₂ : '=' ∉ w₂ := fun hmem => hw (List.mem_cons_of_mem _ hmem)
          obtain ⟨u₂, hu₂⟩ := ih cs w₂
            (by simp only [List.length_cons] at h; omega) hw₂ ⟨u, h2⟩
          exact ⟨u₂, by rw [List.cons_append, ← hu₂]⟩
      | some p =>
        obtain ⟨var, v, rest⟩ := p
        rw [envSub_eq_of_some hm] at hp
        have hpv : Pfx w var := pfx_of_append_cons var '=' _ w hp hw
        obtain ⟨t, mid, htm, hvar, _, _, _, _, hs⟩ := matchEnvAt_some_inv hm
        exact pfx_trans hpv ⟨('=' :: v) ++ '"' :: rest,
          by rw [hs, List.append_assoc]⟩

theorem matchEnvAt_none_envSub {c : Char} {cs : Str}
    (h : matchEnvAt (c :: cs) = none) :
    matchEnvAt (c :: envSub cs) = none := by
  cases ht2 : matchTrigger (c :: envSub cs) with
  | none => simp only [matchEnvAt, ht2]
  | some t =>
    obtain ⟨htm, hp2⟩ := matchTrigger_some_inv ht2
    obtain ⟨tne, teq, tnl, -⟩ := triggers_facts t htm
    cases t with
    | nil => exact absurd rfl tne
    | cons t₀ t₂ =>
      obtain ⟨u, hu⟩ := hp2
      rw [List.cons_append] at hu
      injection hu with hu1 hu2
      subst hu1
      have ht₂e : '=' ∉ t₂ := fun hm => teq (List.mem_cons_of_mem _ hm)
      have ht₂n : '\n' ∉ t₂ := fun hm => tnl (List.mem_cons_of_mem _ hm)
      have hpcs : Pfx t₂ cs :=
        envSub_pfx_reflect cs.length cs t₂ le_rfl ht₂e ⟨u, hu2⟩
      obtain ⟨L, R, hcs, hLn, hR⟩ := line_split cs
      have hpL : Pfx t₂ L := pfx_line (by rw [← hcs]; exact hpcs) ht₂n hR
      obtain ⟨l₂, hL2⟩ := hpL
      have hl₂n : '\n' ∉ l₂ := fun hm => hLn (by
        rw [hL2]; exact List.mem_append_right t₂ hm)
      have hmt1 : matchTrigger (c :: cs) = some (c :: t₂) := by
        apply matchTrigger_of_pfx htm
        obtain ⟨u₂, hu₂⟩ := hpcs
        exact ⟨u₂, by rw [List.cons_append, ← hu₂]⟩
      have hdrop1 : (c :: cs).drop (c :: t₂).length = l₂ ++ R := by
        simp only [List.length_cons, List.drop_succ_cons]
        rw [hcs, hL2, List.append_assoc, List.drop_left]
      have hchain : chainEnv (c :: t₂) l₂ = none := by
        have h5 := h
        simp only [matchEnvAt, hmt1, hdrop1,
          chainEnv_append (c :: t₂) l₂ R hR] at h5
        cases h6 : chainEnv (c :: t₂) l₂ with
        | none => rfl
        | some q => rw [h6] at h5; cases h5
      have hLq : eqThenQuoteFree L = true := by
        rcases chainEnv_none_inv hl₂n hchain with he |
          ⟨mid, z, hzeq, hmide, hzq⟩
        · rw [hL2]
          refine eqThenQuoteFree_of_no_eq (fun hm => ?_)
          rcases List.mem_append.1 hm with h7 | h7
          · exact ht₂e h7
          · exact he h7
        · rw [hL2, hzeq, ← List.append_assoc]
          refine eqThenQuoteFree_append (fun hm => ?_) hzq
          rcases List.mem_append.1 hm with h7 | h7
          · exact ht₂e h7
          · exact hmide h7
      have hsub : envSub cs = L ++ envSub R := by
        rw [hcs]; exact envSub_line L R hLn hLq hR
      have hdrop2 : (c :: envSub cs).drop (c :: t₂).length =
          l₂ ++ envSub R := by
        simp only [List.length_cons, List.drop_succ_cons]
        rw [hsub, hL2, List.append_assoc, List.drop_left]
      simp only [matchEnvAt, ht2, hdrop2,
        chainEnv_append (c :: t₂) l₂ (envSub R) (lineSep_envSub hR), hchain,
        Option.map_none']

/-! ## C8: idempotence of the redaction pass -/

theorem envSub_idem_aux :
    ∀ (n : Nat) (s : Str), s.length ≤ n → envSub (envSub s) = envSub s := by
  intro n
  induction n with
  | zero =>
    intro s h
    have hs : s = [] := List.length_eq_zero.1 (Nat.le_zero.1 h)
    subst hs
    rfl
  | succ n ih =>
    intro s h
    cases s with
    | nil => rfl
    | cons c cs =>
      cases hm : matchEnvAt (c :: cs) with
      | none =>
        rw [envSub_cons_none hm, envSub_cons_none (matchEnvAt_none_envSub hm),
          ih cs (by simp only [List.length_cons] at h; omega)]
      | some p =>
        obtain ⟨var, v, rest⟩ := p
        obtain ⟨t, mid, htm, hvar, hmide, hmidn, hvq, hvn, hs⟩ :=
          matchEnvAt_some_inv hm
        rw [envSub_eq_of_some hm]
        have hnew : matchEnvAt (var ++ '=' :: (stars ++ '"' :: envSub rest)) =
            some (var, stars, envSub rest) := by
          have hpt : Pfx t (var ++ '=' :: (stars ++ '"' :: envSub rest)) := by
            rw [hvar, List.append_assoc]
            exact ⟨mid ++ '=' :: (stars ++ '"' :: envSub rest), rfl⟩
          have hmt : matchTrigger
              (var ++ '=' :: (stars ++ '"' :: envSub rest)) = some t :=
            matchTrigger_of_pfx htm hpt
          have hdrop : (var ++ '=' :: (stars ++ '"' :: envSub rest)).drop
              t.length = mid ++ '=' :: (stars ++ '"' :: envSub rest) := by
            rw [hvar, List.append_assoc, List.drop_left]
          have hchain : chainEnv t (mid ++ '=' :: (stars ++ '"' :: envSub rest))
              = some (t ++ mid, stars, envSub rest) :=
            chainEnv_found t (envSub rest) hmide hmidn (by decide) (by decide)
          simp only [matchEnvAt, hmt]
          rw [hdrop, hchain, hvar]
        rw [envSub_eq_of_some hnew]
        have hrl : rest.length ≤ n := by
          have := matchEnvAt_rest_length hm
          simp only [List.length_cons] at h this
          omega
        rw [ih rest hrl]

/-- C8 (confirmed): the redaction substitution is idempotent — applying
it twice to any text blob yields the same result as applying it once,
and likewise for the whole archive pass. -/
theorem c8_redaction_idempotent :
    (∀ s : Str, envSub (envSub s) = envSub s)
    ∧ ∀ blobs : List (Str × Str),
        redactArchive (redactArchive blobs) = redactArchive blobs := by
  have h1 : ∀ s : Str, envSub (envSub s) = envSub s :=
    fun s => envSub_idem_aux s.length s le_rfl
  refine ⟨h1, ?_⟩
  intro blobs
  simp only [redactArchive, List.map_map]
  refine List.map_congr_left (fun b _ => ?_)
  obtain ⟨nm, body⟩ := b
  simp only [Function.comp_apply]
  by_cases hg : matchesInspectGlob nm
  · simp [hg, h1]
  · simp [hg]

/-! ## C4: what the redaction pass masks -/

theorem hasSubstr_of_pfx {s t : Str} (h : Pfx t s) : hasSubstr s t = true := by
  unfold hasSubstr
  rw [List.any_eq_true]
  exact ⟨s, (List.mem_tails _ _).2 (List.suffix_refl s), (pfxB_iff t s).2 h⟩

theorem hasSubstr_cons_mono {c : Char} {cs t : Str}
    (h : hasSubstr cs t = true) : hasSubstr (c :: cs) t = true := by
  unfold hasSubstr at h ⊢
  rw [List.any_eq_true] at h ⊢
  obtain ⟨x, hx, hp⟩ := h
  refine ⟨x, ?_, hp⟩
  rw [List.tails_cons]
  exact List.mem_cons_of_mem _ hx

theorem envSub_no_trigger :
    ∀ {s : Str}, (∀ t ∈ triggers, hasSubstr s t = false) → envSub s = s := by
  intro s
  induction s with
  | nil => intro _; rfl
  | cons c cs ih =>
    intro h
    have hm : matchEnvAt (c :: cs) = none := by
      cases hmt : matchTrigger (c :: cs) with
      | some t =>
        obtain ⟨htm, hp⟩ := matchTrigger_some_inv hmt
        have h2 := hasSubstr_of_pfx hp
        rw [h t htm] at h2
        cases h2
      | none => simp only [matchEnvAt, hmt]
    have htail : ∀ t ∈ triggers, hasSubstr cs t = false := by
      intro t ht
      cases hcs : hasSubstr cs t with
      | false => rfl
      | true =>
        have h3 := hasSubstr_cons_mono (c := c) hcs
        rw [h t ht] at h3
        cases h3
    rw [envSub_cons_none hm, ih htail]

theorem sfx_nil {w : Str} (h : Sfx w ([] : Str)) : w = [] := by
  obtain ⟨u, hu⟩ := h
  exact (List.append_eq_nil.1 hu.symm).2

theorem sfx_cons_cases {w : Str} {x : Char} {b : Str} (h : Sfx w (x :: b)) :
    w = x :: b ∨ Sfx w b := by
  obtain ⟨u, hu⟩ := h
  cases u with
  | nil => exact Or.inl (by rw [List.nil_append] at hu; exact hu.symm)
  | cons y u₂ =>
    rw [List.cons_append] at hu
    injection hu with h1 h2
    exact Or.inr ⟨u₂, h2⟩

theorem sfx_append_cases :
    ∀ (a : Str) {b w : Str}, Sfx w (a ++ b) →
      (∃ d, Sfx d a ∧ d ≠ [] ∧ w = d ++ b) ∨ Sfx w b := by
  intro a
  induction a with
  | nil =>
    intro b w h
    rw [List.nil_append] at h
    exact Or.inr h
  | cons x a₂ ih =>
    intro b w h
    rw [List.cons_append] at h
    rcases sfx_cons_cases h with rfl | h2
    · exact Or.inl ⟨x :: a₂, ⟨[], rfl⟩, List.cons_ne_nil _ _,
        (List.cons_append x a₂ b).symm⟩
    · rcases ih h2 with ⟨d, ⟨u, hu⟩, hne, rfl⟩ | h3
      · exact Or.inl ⟨d, ⟨x :: u, by rw [hu, List.cons_append]⟩, hne, rfl⟩
      · exact Or.inr h3

theorem sfx_mem {w s : Str} (h : Sfx w s) {x : Char} (hx : x ∈ w) : x ∈ s := by
  obtain ⟨u, rfl⟩ := h
  exact List.mem_append_right u hx

theorem matchTrigger_head {c : Char} {x t : Str}
    (h : matchTrigger (c :: x) = some t) :
    c = 'p' ∨ c = 'k' ∨ c = 's' ∨ c = 'P' ∨ c = 'K' ∨ c = 'S' := by
  obtain ⟨htm, hp⟩ := matchTrigger_some_inv h
  simp only [triggers, List.mem_cons] at htm
  obtain ⟨u, hu⟩ := hp
  rcases htm with rfl | rfl | rfl | rfl | rfl | rfl | h7
  · have hu2 : c :: x = 'p' :: ("ass".toList ++ u) := hu
    injection hu2 with h1 _
    exact Or.inl h1
  · have hu2 : c :: x = 'k' :: ("ey".toList ++ u) := hu
    injection hu2 with h1 _
    exact Or.inr (Or.inl h1)
  · have hu2 : c :: x = 's' :: ("ecret".toList ++ u) := hu
    injection hu2 with h1 _
    exact Or.inr (Or.inr (Or.inl h1))
  · have hu2 : c :: x = 'P' :: ("ASS".toList ++ u) := hu
    injection hu2 with h1 _
    exact Or.inr (Or.inr (Or.inr (Or.inl h1)))
  · have hu2 : c :: x = 'K' :: ("EY".toList ++ u) := hu
    injection hu2 with h1 _
    exact Or.inr (Or.inr (Or.inr (Or.inr (Or.inl h1))))
  · have hu2 : c :: x = 'S' :: ("ECRET".toList ++ u) := hu
    injection hu2 with h1 _
    exact Or.inr (Or.inr (Or.inr (Or.inr (Or.inr h1))))
  · cases h7

/-- Universal masking postcondition: wherever the sensitive pattern
still recognizes a KEY=VALUE" occurrence inside the redacted output,
the value is exactly the eight-asterisk mask.  The suffix quantifies
over every position of the output. -/
theorem envSub_suffix_masked :
    ∀ (n : Nat) (s : Str), s.length ≤ n →
      ∀ (w var v rest : Str), Sfx w (envSub s) →
        matchEnvAt w = some (var, v, rest) → v = stars := by
  intro n
  induction n with
  | zero =>
    intro s h w var v rest hsfx hm
    have hs : s = [] := List.length_eq_zero.1 (Nat.le_zero.1 h)
    subst hs
    have hw : w = [] := sfx_nil hsfx
    subst hw
    have hnil : matchEnvAt ([] : Str) = none := rfl
    rw [hnil] at hm
    cases hm
  | succ n ih =>
    intro s h w var v rest hsfx hm
    cases s with
    | nil =>
      have hw : w = [] := sfx_nil hsfx
      subst hw
      have hnil : matchEnvAt ([] : Str) = none := rfl
      rw [hnil] at hm
      cases hm
    | cons c cs =>
      cases hmm : matchEnvAt (c :: cs) with
      | none =>
        rw [envSub_cons_none hmm] at hsfx
        rcases sfx_cons_cases hsfx with rfl | h2
        · rw [matchEnvAt_none_envSub hmm] at hm
          cases hm
        · exact ih cs (by simp only [List.length_cons] at h; omega)
            w var v rest h2 hm
      | some p =>
        obtain ⟨var0, v0, rest0⟩ := p
        obtain ⟨t, mid, htm, hvar0, hmide, hmidn, hv0q, hv0n, hs0⟩ :=
          matchEnvAt_some_inv hmm
        have hrl : rest0.length ≤ n := by
          have := matchEnvAt_rest_length hmm
          simp only [List.length_cons] at h this
          omega
        rw [envSub_eq_of_some hmm] at hsfx
        rcases sfx_append_cases var0 hsfx with ⟨d, hd, hdne, rfl⟩ | hrest
        · -- w starts inside var followed by the masked remainder
          have hde : '=' ∉ d := by
            intro hx
            have h5 := sfx_mem hd hx
            rw [hvar0] at h5
            rcases List.mem_append.1 h5 with h6 | h6
            · exact (triggers_facts t htm).2.1 h6
            · exact hmide h6
          have hdn : '\n' ∉ d := by
            intro hx
            have h5 := sfx_mem hd hx
            rw [hvar0] at h5
            rcases List.mem_append.1 h5 with h6 | h6
            · exact (triggers_facts t htm).2.2.1 h6
            · exact hmidn h6
          unfold matchEnvAt at hm
          cases hmt : matchTrigger
              (d ++ '=' :: (stars ++ '"' :: envSub rest0)) with
          | none => simp only [hmt] at hm; cases hm
          | some t2 =>
            simp only [hmt] at hm
            obtain ⟨ht2m, hp2⟩ := matchTrigger_some_inv hmt
            have ht2e : '=' ∉ t2 := (triggers_facts t2 ht2m).2.1
            obtain ⟨d2, hd2⟩ := pfx_of_append_cons d '=' _ t2 hp2 ht2e
            have hdrop : (d ++ '=' :: (stars ++ '"' :: envSub rest0)).drop
                t2.length = d2 ++ '=' :: (stars ++ '"' :: envSub rest0) := by
              rw [hd2, List.append_assoc, List.drop_left]
            rw [hdrop] at hm
            have hchain : chainEnv t2
                (d2 ++ '=' :: (stars ++ '"' :: envSub rest0)) =
                some (t2 ++ d2, stars, envSub rest0) :=
              chainEnv_found t2 (envSub rest0)
                (fun hx => hde (by rw [hd2]; exact List.mem_append_right t2 hx))
                (fun hx => hdn (by rw [hd2]; exact List.mem_append_right t2 hx))
                (by decide) (by decide)
            rw [hchain] at hm
            simp only [Option.some.injEq, Prod.mk.injEq] at hm
            exact hm.2.1.symm
        · rcases sfx_cons_cases hrest with rfl | h3
          · -- w starts at the inserted '='
            unfold matchEnvAt at hm
            cases hmt : matchTrigger ('=' :: (stars ++ '"' :: envSub rest0))
              with
            | none => simp only [hmt] at hm; cases hm
            | some t2 =>
              rcases matchTrigger_head hmt with h4 | h4 | h4 | h4 | h4 | h4 <;>
                exact absurd h4 (by decide)
          · rcases sfx_append_cases stars h3 with ⟨e, he, hene, rfl⟩ | h5
            · -- w starts inside the asterisk mask
              cases e with
              | nil => exact absurd rfl hene
              | cons e0 e₂ =>
                have he0 : e0 = '*' :=
                  (by decide : ∀ x ∈ stars, x = '*') e0
                    (sfx_mem he (List.mem_cons_self e0 e₂))
                subst he0
                rw [List.cons_append] at hm
                unfold matchEnvAt at hm
                cases hmt : matchTrigger
                    ('*' :: (e₂ ++ '"' :: envSub rest0)) with
                | none => simp only [hmt] at hm; cases hm
                | some t2 =>
                  rcases matchTrigger_head hmt with h4 | h4 | h4 | h4 | h4 | h4
                    <;> exact absurd h4 (by decide)
            · rcases sfx_cons_cases h5 with rfl | h6
              · -- w starts at the closing quote
                unfold matchEnvAt at hm
                cases hmt : matchTrigger ('"' :: envSub rest0) with
                | none => simp only [hmt] at hm; cases hm
                | some t2 =>
                  rcases matchTrigger_head hmt with h4 | h4 | h4 | h4 | h4 | h4
                    <;> exact absurd h4 (by decide)
              · exact ih rest0 hrl w var v rest h6 hm

/-- C4 counterexample: the blob name matches the glob, the key myPass
contains "pass" case-insensitively, yet the pass leaves the blob
unchanged (the regex alternatives are all-lowercase or all-uppercase
only), while the claim requires the value masked. -/
theorem c4_counterexample :
    matchesInspectGlob c4Name = true
    ∧ hasSubstr (("myPass".toList).map lowerC) ("pass".toList) = true
    ∧ redactArchive [(c4Name, c4Blob)] = [(c4Name, c4Blob)]
    ∧ c4Blob ≠ c4Masked := by
  refine ⟨by decide, by decide, by decide, by decide⟩

/-- C4 (corrected): the pass masks exact-case trigger matches and only
those.  Universally over all blobs: (1) in the redacted output, every
KEY=VALUE" occurrence that the sensitive pattern recognizes — at any
position — carries exactly the eight-asterisk mask, so no unmasked
sensitive value survives a pass; (2) a blob containing no all-lowercase
pass/key/secret and no all-uppercase PASS/KEY/SECRET substring is left
entirely unchanged, so keys that are sensitive only case-insensitively
(mixed case, e.g. myPass) never trigger masking.  Concretely,
"mypassword=supersecret" becomes "mypassword=********" and
"container=oci" stays unchanged. -/
theorem c4_amended_redaction :
    (∀ (s w var v rest : Str), Sfx w (envSub s) →
        matchEnvAt w = some (var, v, rest) → v = stars)
    ∧ (∀ body : Str, (∀ t ∈ triggers, hasSubstr body t = false) →
        envSub body = body)
    ∧ redactArchive [(c4Name, ("\"mypassword=supersecret\"".toList))] =
        [(c4Name, ("\"mypassword=********\"".toList))]
    ∧ redactArchive [(c4Name, ("\"container=oci\"".toList))] =
        [(c4Name, ("\"container=oci\"".toList))] := by
  refine ⟨fun s w var v rest hs hm =>
      envSub_suffix_masked s.length s le_rfl w var v rest hs hm,
    fun body h => envSub_no_trigger h, by decide, by decide⟩

/-- C4 witness: the key=value occurrence visible to the pattern in the
redacted form of a key=a blob carries the mask, and a mixed-case blob
without exact-case triggers passes through unchanged. -/
theorem c4_witness :
    (("********".toList : Str) = stars)
    ∧ envSub ("\"myPass=hidden\" more text".toList) =
        ("\"myPass=hidden\" more text".toList) :=
  ⟨c4_amended_redaction.1 ("\"key=a\"".toList) ("key=********\"".toList)
      ("key".toList) ("********".toList) []
      ⟨("\"".toList), by decide⟩ (by decide),
   c4_amended_redaction.2.1 _ (by decide)⟩

end Podman
